import Mathlib

set_option maxHeartbeats 1000000

/-!
Shallow embedding of getLinksTo from src/tools/lsinput.cpp, together with a
model of the POSIX path primitives it uses (opendir, readdir, lstat, readlink,
chdir, realpath).  A filesystem snapshot is a partial map from absolute
component lists to nodes; path text is a list of characters, as the program
works on byte strings.
-/

/-- A path component (directory-entry name, or one piece of path text). -/
abbrev Name := List Char

/-- An absolute, already-split filesystem location: components from the root. -/
abbrev Loc := List Name

/-- A filesystem node: a regular file, a directory with its readdir listing, or
a symbolic link holding its raw destination text. -/
inductive Node where
  | file : Node
  | dir : List Name → Node
  | symlink : List Char → Node
deriving DecidableEq

/-- A filesystem snapshot: which node, if any, sits at each location. -/
structure FS where
  node : Loc → Option Node

/-- The location p holds a directory in fs. -/
def isDir (fs : FS) (p : Loc) : Prop := ∃ l, fs.node p = some (Node.dir l)

/-- Basic sanity of a snapshot: the root is a directory, and every location
that holds a node hangs directly under a directory. -/
def FS.wf (fs : FS) : Prop :=
  isDir fs [] ∧ ∀ p c, fs.node (p ++ [c]) ≠ none → isDir fs p

/-- Split character text on the slash character. -/
def splitSlash : List Char → List (List Char)
  | [] => [[]]
  | c :: rest =>
    if c = '/' then [] :: splitSlash rest
    else
      match splitSlash rest with
      | [] => [[c]]
      | g :: gs => (c :: g) :: gs

/-- Join components with slashes. -/
def interSlash : Loc → List Char
  | [] => []
  | [n] => n
  | n :: rest => n ++ '/' :: interSlash rest

/-- Render an absolute component list back to path text, the way realpath
returns canonical text. -/
def render (p : Loc) : List Char := '/' :: interSlash p

/-- Loc text starting with a slash is absolute. -/
def isAbsolute (s : List Char) : Bool := s.head? == some '/'

/-- Split path text into components, dropping empty and single-dot components
the way the kernel path walk treats them as no-ops. -/
def parsePath (s : List Char) : Bool × List Name :=
  (isAbsolute s, (splitSlash s).filter fun g => !(g == [] || g == ['.']))

/-- Failure modes of the modelled path primitives (errno values). -/
inductive RErr where
  | notFound : RErr
  | notDir : RErr
  | loopLimit : RErr
  | invalidArg : RErr
deriving DecidableEq

/-- Size of the readlink buffer in getLinksTo. -/
def PATH_MAX : Nat := 4096

/-- Bound on symbolic-link nesting during one resolution. -/
def SYMLOOP_MAX : Nat := 40

/-- One kernel-style path walk from location cur through the given components;
rl resolves the body of any symbolic link met on the way. -/
def walk (fs : FS) (rl : Loc → List Char → Except RErr Loc) :
    Loc → List Name → Except RErr Loc
  | cur, [] => Except.ok cur
  | cur, c :: rest =>
    if c = ['.', '.'] then walk fs rl cur.dropLast rest
    else
      match fs.node (cur ++ [c]) with
      | none => Except.error RErr.notFound
      | some Node.file =>
        if rest = [] then Except.ok (cur ++ [c]) else Except.error RErr.notDir
      | some (Node.dir _) => walk fs rl (cur ++ [c]) rest
      | some (Node.symlink d) =>
        match rl cur d with
        | Except.error e => Except.error e
        | Except.ok base => walk fs rl base rest

/-- Loc walk with a bound on symbolic-link nesting depth. -/
def resolveB (fs : FS) : Nat → Loc → List Name → Except RErr Loc
  | 0, cur, comps => walk fs (fun _ _ => Except.error RErr.loopLimit) cur comps
  | b + 1, cur, comps =>
    walk fs
      (fun cur2 d =>
        let pd := parsePath d
        resolveB fs b (if pd.1 then [] else cur2) pd.2)
      cur comps

/-- Model of realpath(3) as called by a process whose working directory is
cwd: full resolution of the text s to an absolute, symlink-free location. -/
def realpathFrom (fs : FS) (cwd : Loc) (s : List Char) : Except RErr Loc :=
  let pr := parsePath s
  resolveB fs SYMLOOP_MAX (if pr.1 then [] else cwd) pr.2

/-- PathResolver.canonicalize of the spec: realpath returning canonical text. -/
def canonicalize (fs : FS) (cwd : Loc) (s : List Char) : Except RErr (List Char) :=
  (realpathFrom fs cwd s).map render

/-- Model of opendir(3) followed by reading the whole entry stream. -/
def opendirPath (fs : FS) (cwd : Loc) (s : List Char) : Except RErr (List Name) :=
  match realpathFrom fs cwd s with
  | Except.error e => Except.error e
  | Except.ok p =>
    match fs.node p with
    | some (Node.dir l) => Except.ok l
    | some _ => Except.error RErr.notDir
    | none => Except.error RErr.notFound

/-- Modelled from the spec: chdir(2) as used by the ChDir scope guard of
utils.hpp (not under src/); it moves the process working directory to the
resolved location of s, failing when s does not name a directory. -/
def chdirPath (fs : FS) (cwd : Loc) (s : List Char) : Except RErr Loc :=
  match realpathFrom fs cwd s with
  | Except.error e => Except.error e
  | Except.ok p =>
    match fs.node p with
    | some (Node.dir _) => Except.ok p
    | some _ => Except.error RErr.notDir
    | none => Except.error RErr.notFound

/-- Model of lstat(2): resolve every component but the last, then query the
last component without following it. -/
def lstatPath (fs : FS) (cwd : Loc) (s : List Char) : Except RErr Node :=
  let pr := parsePath s
  let start := if pr.1 then ([] : Loc) else cwd
  match pr.2.getLast? with
  | none =>
    match fs.node start with
    | some nd => Except.ok nd
    | none => Except.error RErr.notFound
  | some last =>
    if last = ['.', '.'] then
      match resolveB fs SYMLOOP_MAX start pr.2 with
      | Except.error e => Except.error e
      | Except.ok p =>
        match fs.node p with
        | some nd => Except.ok nd
        | none => Except.error RErr.notFound
    else
      match resolveB fs SYMLOOP_MAX start pr.2.dropLast with
      | Except.error e => Except.error e
      | Except.ok p0 =>
        match fs.node (p0 ++ [last]) with
        | some nd => Except.ok nd
        | none => Except.error RErr.notFound

/-- Model of readlink(2) into a PATH_MAX byte buffer: returns the stored
destination text silently truncated to the buffer size. -/
def readlinkPath (fs : FS) (cwd : Loc) (s : List Char) : Except RErr (List Char) :=
  match lstatPath fs cwd s with
  | Except.error e => Except.error e
  | Except.ok (Node.symlink d) => Except.ok (d.take PATH_MAX)
  | Except.ok _ => Except.error RErr.invalidArg

/-- Decidable equality of fallible results, for concrete evaluation. -/
instance instDecEqExcept {e a : Type} [DecidableEq e] [DecidableEq a] :
    DecidableEq (Except e a) := fun x y =>
  match x, y with
  | Except.ok v, Except.ok w =>
    if h : v = w then isTrue (by rw [h]) else isFalse (by intro hc; cases hc; exact h rfl)
  | Except.ok _, Except.error _ => isFalse (by intro hc; cases hc)
  | Except.error _, Except.ok _ => isFalse (by intro hc; cases hc)
  | Except.error v, Except.error w =>
    if h : v = w then isTrue (by rw [h]) else isFalse (by intro hc; cases hc; exact h rfl)

/-- The SystemError throw sites of getLinksTo, by the message each one uses. -/
inductive GErr where
  | dirOpen : RErr → GErr
  | targetResolve : RErr → GErr
  | statFail : RErr → GErr
  | readlinkFail : RErr → GErr
  | scopeFail : RErr → GErr
  | linkResolve : RErr → GErr
deriving DecidableEq

/-- The body of the readdir loop of getLinksTo, for one entry.  Build the
entry path, lstat it without following (skip non-symlinks with ok false); for
a symlink read its raw destination into the PATH_MAX buffer, enter the scoped
working-directory override (ChDir cd(dirpath), modelled from the spec since
utils.hpp is not under src/), resolve the destination with realpath from
there, leave the override (cd.popd() runs before the failure check), then on
failure throw and otherwise report whether the resolved destination text
equals the canonical target text tS.  The working directory after the body
always equals the one before it, which scanEntries threads unchanged. -/
def stepEntry (fs : FS) (cwd : Loc) (dp tS : List Char) (name : Name) :
    Except GErr Bool :=
  match lstatPath fs cwd (dp ++ '/' :: name) with
  | Except.error e => Except.error (GErr.statFail e)
  | Except.ok st =>
    match st with
    | Node.symlink _ =>
      match readlinkPath fs cwd (dp ++ '/' :: name) with
      | Except.error e => Except.error (GErr.readlinkFail e)
      | Except.ok lnkRel =>
        match chdirPath fs cwd dp with
        | Except.error e => Except.error (GErr.scopeFail e)
        | Except.ok d =>
          match realpathFrom fs d lnkRel with
          | Except.error e => Except.error (GErr.linkResolve e)
          | Except.ok lnkDst => Except.ok (decide (tS = render lnkDst))
    | _ => Except.ok false

/-- The readdir loop of getLinksTo: run the body on each entry in order; a
throw aborts the loop, a match appends the entry path to the vector.  The
second component of the result is the process working directory on exit,
which each loop body restores. -/
def scanEntries (fs : FS) (dp : List Char) (tS : List Char) :
    List Name → Loc → List (List Char) →
    Except GErr (List (List Char)) × Loc
  | [], cwd, vec => (Except.ok vec, cwd)
  | name :: rest, cwd, vec =>
    match stepEntry fs cwd dp tS name with
    | Except.error e => (Except.error e, cwd)
    | Except.ok true => scanEntries fs dp tS rest cwd (vec ++ [dp ++ '/' :: name])
    | Except.ok false => scanEntries fs dp tS rest cwd vec

/-- Embedding of getLinksTo(target_rel, dirpath): open the directory, then
canonicalize the target, then scan the entries.  The pair carries the result
or thrown error together with the process working directory on return. -/
def getLinksTo (fs : FS) (cwd : Loc) (targetRel : List Char) (dp : List Char) :
    Except GErr (List (List Char)) × Loc :=
  match opendirPath fs cwd dp with
  | Except.error e => (Except.error (GErr.dirOpen e), cwd)
  | Except.ok entries =>
    match realpathFrom fs cwd targetRel with
    | Except.error e => (Except.error (GErr.targetResolve e), cwd)
    | Except.ok target =>
      scanEntries fs dp (render target) entries cwd []

/-- Whether a getLinksTo outcome is the target-resolution failure. -/
def isTargetErrOf : Except GErr (List (List Char)) → Bool
  | Except.error (GErr.targetResolve _) => true
  | _ => false

/-- Entry name D. -/
def nD : Name := ['D']

/-- Entry name A. -/
def nA : Name := ['A']

/-- Entry name B. -/
def nB : Name := ['B']

/-- Entry name l1. -/
def nL1 : Name := ['l', '1']

/-- Entry name l2. -/
def nL2 : Name := ['l', '2']

/-- Entry name l3. -/
def nL3 : Name := ['l', '3']

/-- Entry name g, listed by readdir but holding no node. -/
def nG : Name := ['g']

/-- Entry name L. -/
def nLL : Name := ['L']

/-- Link text pointing at A relative to the containing directory. -/
def sDotA : List Char := ['.', '/', 'A']

/-- Link text pointing at B by absolute path. -/
def sAbsB : List Char := ['/', 'D', '/', 'B']

/-- Link text naming a missing entry: a dangling link. -/
def sGone : List Char := ['n', 'o']

/-- Directory text of the scanned link directory. -/
def dD : List Char := ['/', 'D']

/-- Target text naming the regular file A inside D. -/
def tA : List Char := ['/', 'D', '/', 'A']

/-- Directory text that exists nowhere. -/
def dNope : List Char := ['/', 'n', 'p']

/-- Target text that exists nowhere. -/
def tNada : List Char := ['/', 'z']

/-- Snapshot with one valid link and one dangling link inside D. -/
def exNode1 (p : Loc) : Option Node :=
  if p = [] then some (Node.dir [nD])
  else if p = [nD] then some (Node.dir [nA, nL1, nL3])
  else if p = [nD, nA] then some Node.file
  else if p = [nD, nL1] then some (Node.symlink sDotA)
  else if p = [nD, nL3] then some (Node.symlink sGone)
  else none

/-- Filesystem of the dangling-link scenario. -/
def exFS1 : FS := ⟨exNode1⟩

/-- Snapshot where every link in D resolves: l1 points at A relatively and l2
points at B absolutely. -/
def exNode2 (p : Loc) : Option Node :=
  if p = [] then some (Node.dir [nD])
  else if p = [nD] then some (Node.dir [nA, nB, nL1, nL2])
  else if p = [nD, nA] then some Node.file
  else if p = [nD, nB] then some Node.file
  else if p = [nD, nL1] then some (Node.symlink sDotA)
  else if p = [nD, nL2] then some (Node.symlink sAbsB)
  else none

/-- Filesystem of the clean scenario. -/
def exFS2 : FS := ⟨exNode2⟩

/-- Snapshot whose directory D lists an entry g that holds no node, so lstat
fails on it. -/
def exNode3 (p : Loc) : Option Node :=
  if p = [] then some (Node.dir [nD])
  else if p = [nD] then some (Node.dir [nA, nG])
  else if p = [nD, nA] then some Node.file
  else none

/-- Filesystem of the failing-lstat scenario. -/
def exFS3 : FS := ⟨exNode3⟩

/-- Stored destination text longer than the PATH_MAX buffer. -/
def longDest : List Char := List.replicate 5000 'a'

/-- Snapshot whose directory D holds one symlink with an overlong stored
destination. -/
def exNode4 (p : Loc) : Option Node :=
  if p = [] then some (Node.dir [nD])
  else if p = [nD] then some (Node.dir [nLL])
  else if p = [nD, nLL] then some (Node.symlink longDest)
  else none

/-- Filesystem of the overlong-destination scenario. -/
def exFS4 : FS := ⟨exNode4⟩

/-- A component the path parser can emit: nonempty, not the single-dot
component, and slash-free. -/
def validComp (n : Name) : Prop := n ≠ [] ∧ n ≠ ['.'] ∧ ('/' : Char) ∉ n

/-- A plain entry name: a parser component that is not dot-dot either. -/
def plainName (n : Name) : Prop := validComp n ∧ n ≠ ['.', '.']

/-- A good location: plain components throughout, every strictly shorter
initial segment a directory, and the location itself a directory or a
regular file. -/
def goodPath (fs : FS) (p : Loc) : Prop :=
  (∀ n ∈ p, plainName n) ∧
  (∀ k, k < p.length → isDir fs (p.take k)) ∧
  (isDir fs p ∨ fs.node p = some Node.file)

/-- The readdir loop leaves the process working directory where it found it,
on the success exit and on every throwing exit. -/
theorem scanEntries_cwd (fs : FS) (dp tS : List Char) :
    ∀ entries cwd vec, (scanEntries fs dp tS entries cwd vec).2 = cwd := by
  intro entries
  induction entries with
  | nil => intro cwd vec; rfl
  | cons name rest ih =>
    intro cwd vec
    simp only [scanEntries]
    repeat' split
    all_goals first | rfl | exact ih cwd _

/-- C6: the scoped working-directory override taken for each symbolic-link
resolution is released on every exit path of the scan, including the exits
where resolution fails, so the working directory seen by the caller after
scanEntries and after getLinksTo equals the one seen before the call. -/
theorem c6_cwd_restored (fs : FS) (cwd : Loc) (t dp tS : List Char)
    (entries : List Name) (vec : List (List Char)) :
    (scanEntries fs dp tS entries cwd vec).2 = cwd ∧
    (getLinksTo fs cwd t dp).2 = cwd := by
  refine ⟨scanEntries_cwd fs dp tS entries cwd vec, ?_⟩
  unfold getLinksTo
  cases opendirPath fs cwd dp with
  | error e => rfl
  | ok entries2 =>
    cases realpathFrom fs cwd t with
    | error e => rfl
    | ok target => exact scanEntries_cwd fs dp (render target) entries2 cwd []

/-- C5: when the directory cannot be opened, getLinksTo throws the
directory-open failure and nothing else, leaving the working directory
untouched. -/
theorem c5_dir_unavailable (fs : FS) (cwd : Loc) (t dp : List Char) (e : RErr)
    (h : opendirPath fs cwd dp = Except.error e) :
    getLinksTo fs cwd t dp = (Except.error (GErr.dirOpen e), cwd) := by
  simp [getLinksTo, h]

/-- Witness for c5_dir_unavailable on a concrete snapshot. -/
theorem c5_witness :
    opendirPath exFS2 [] dNope = Except.error RErr.notFound ∧
    getLinksTo exFS2 [] tA dNope = (Except.error (GErr.dirOpen RErr.notFound), []) :=
  ⟨by decide, c5_dir_unavailable exFS2 [] tA dNope RErr.notFound (by decide)⟩

/-- C4 counterexample: with an unopenable directory and a target that cannot
be canonicalized either, getLinksTo fails with the directory-open error, not
with the target-resolution error the claim requires. -/
theorem c4_counterexample :
    (getLinksTo exFS2 [] tNada dNope).1 = Except.error (GErr.dirOpen RErr.notFound) ∧
    realpathFrom exFS2 [] tNada = Except.error RErr.notFound ∧
    isTargetErrOf (getLinksTo exFS2 [] tNada dNope).1 = false := by
  refine ⟨by decide, by decide, by decide⟩

/-- C4 as amended: getLinksTo opens the directory first; a target that cannot
be canonicalized produces the target-resolution error exactly when the
directory could be opened. -/
theorem c4_open_before_target (fs : FS) (cwd : Loc) (t dp : List Char)
    (entries : List Name) (e : RErr)
    (h1 : opendirPath fs cwd dp = Except.ok entries)
    (h2 : realpathFrom fs cwd t = Except.error e) :
    getLinksTo fs cwd t dp = (Except.error (GErr.targetResolve e), cwd) := by
  simp [getLinksTo, h1, h2]

/-- Witness for c4_open_before_target on a concrete snapshot. -/
theorem c4_witness :
    opendirPath exFS2 [] dD = Except.ok [nA, nB, nL1, nL2] ∧
    realpathFrom exFS2 [] tNada = Except.error RErr.notFound ∧
    getLinksTo exFS2 [] tNada dD = (Except.error (GErr.targetResolve RErr.notFound), []) :=
  ⟨by decide, by decide,
    c4_open_before_target exFS2 [] tNada dD [nA, nB, nL1, nL2] RErr.notFound
      (by decide) (by decide)⟩

/-- C1 counterexample: in a directory whose only defect is one dangling link
(l3, beside the regular file A and the valid link l1 to A), getLinksTo throws
a resolution error instead of skipping the dangling entry, and the match for
the valid link l1 is not returned. -/
theorem c1_counterexample :
    (getLinksTo exFS1 [] tA dD).1 = Except.error (GErr.linkResolve RErr.notFound) ∧
    lstatPath exFS1 [] (dD ++ '/' :: nL3) = Except.ok (Node.symlink sGone) ∧
    stepEntry exFS1 [] dD (render [nD, nA]) nL1 = Except.ok true := by
  refine ⟨by decide, by decide, by decide⟩

/-- A loop body that does not throw ran lstat successfully. -/
theorem stepEntry_ok_lstat (fs : FS) (cwd : Loc) (dp tS : List Char) (name : Name)
    (b : Bool) (h : stepEntry fs cwd dp tS name = Except.ok b) :
    ∃ st, lstatPath fs cwd (dp ++ '/' :: name) = Except.ok st := by
  unfold stepEntry at h
  cases h1 : lstatPath fs cwd (dp ++ '/' :: name) with
  | error e => rw [h1] at h; simp at h
  | ok st => exact ⟨st, rfl⟩

/-- A loop body that does not throw and saw a symlink also ran readlink, the
scope change and the destination resolution successfully, and its verdict is
the comparison of the resolved destination with the target text. -/
theorem stepEntry_symlink_ok (fs : FS) (cwd : Loc) (dp tS : List Char)
    (name : Name) (dst : List Char) (b : Bool)
    (h : stepEntry fs cwd dp tS name = Except.ok b)
    (hl : lstatPath fs cwd (dp ++ '/' :: name) = Except.ok (Node.symlink dst)) :
    ∃ lnkRel d q, readlinkPath fs cwd (dp ++ '/' :: name) = Except.ok lnkRel ∧
      chdirPath fs cwd dp = Except.ok d ∧
      realpathFrom fs d lnkRel = Except.ok q ∧
      b = decide (tS = render q) := by
  unfold stepEntry at h
  rw [hl] at h
  dsimp only at h
  cases h2 : readlinkPath fs cwd (dp ++ '/' :: name) with
  | error e => rw [h2] at h; simp at h
  | ok lnkRel =>
    rw [h2] at h
    dsimp only at h
    cases h3 : chdirPath fs cwd dp with
    | error e => rw [h3] at h; simp at h
    | ok d =>
      rw [h3] at h
      dsimp only at h
      cases h4 : realpathFrom fs d lnkRel with
      | error e => rw [h4] at h; simp at h
      | ok q =>
        rw [h4] at h
        dsimp only at h
        refine ⟨lnkRel, d, q, rfl, rfl, h4, ?_⟩
        simpa using h.symm

/-- The loop body reports a match exactly when the entry is a symbolic link
whose destination, read back truncated and resolved from the scanned
directory, canonicalizes to text equal to the target text. -/
theorem stepEntry_true_iff (fs : FS) (cwd : Loc) (dp tS : List Char) (name : Name) :
    stepEntry fs cwd dp tS name = Except.ok true ↔
    ∃ dst lnkRel d q,
      lstatPath fs cwd (dp ++ '/' :: name) = Except.ok (Node.symlink dst) ∧
      readlinkPath fs cwd (dp ++ '/' :: name) = Except.ok lnkRel ∧
      chdirPath fs cwd dp = Except.ok d ∧
      realpathFrom fs d lnkRel = Except.ok q ∧
      tS = render q := by
  constructor
  · intro h
    cases h1 : lstatPath fs cwd (dp ++ '/' :: name) with
    | error e => unfold stepEntry at h; rw [h1] at h; simp at h
    | ok st =>
      cases st with
      | symlink dst =>
        obtain ⟨lnkRel, d, q, h2, h3, h4, hb⟩ :=
          stepEntry_symlink_ok fs cwd dp tS name dst true h h1
        refine ⟨dst, lnkRel, d, q, rfl, h2, h3, h4, ?_⟩
        simpa using hb.symm
      | file => unfold stepEntry at h; rw [h1] at h; simp at h
      | dir l => unfold stepEntry at h; rw [h1] at h; simp at h
  · rintro ⟨dst, lnkRel, d, q, h1, h2, h3, h4, h5⟩
    unfold stepEntry
    rw [h1]; dsimp only
    rw [h2]; dsimp only
    rw [h3]; dsimp only
    rw [h4]; dsimp only
    simp [h5]

/-- On the success path the scan collects exactly the entries whose loop body
reports a match, in readdir order. -/
theorem scanEntries_ok_eq (fs : FS) (dp tS : List Char) :
    ∀ entries cwd vec res,
      (scanEntries fs dp tS entries cwd vec).1 = Except.ok res →
      res = vec ++ (entries.filter fun n =>
        decide (stepEntry fs cwd dp tS n = Except.ok true)).map
        (fun n => dp ++ '/' :: n) := by
  intro entries
  induction entries with
  | nil =>
    intro cwd vec res h
    simp only [scanEntries] at h
    obtain rfl : vec = res := by simpa using h
    simp
  | cons name rest ih =>
    intro cwd vec res h
    simp only [scanEntries] at h
    cases h1 : stepEntry fs cwd dp tS name with
    | error e => rw [h1] at h; simp at h
    | ok b =>
      rw [h1] at h
      cases b with
      | true =>
        have h2 := ih cwd (vec ++ [dp ++ '/' :: name]) res h
        simp [List.filter_cons, h1, h2]
      | false =>
        have h2 := ih cwd vec res h
        simp [List.filter_cons, h1, h2]

/-- Success of the scan means every listed entry got through its loop body
without a throw. -/
theorem scanEntries_ok_step (fs : FS) (dp tS : List Char) :
    ∀ entries cwd vec res name,
      (scanEntries fs dp tS entries cwd vec).1 = Except.ok res →
      name ∈ entries →
      ∃ b, stepEntry fs cwd dp tS name = Except.ok b := by
  intro entries
  induction entries with
  | nil => intro cwd vec res name h hm; cases hm
  | cons nm rest ih =>
    intro cwd vec res name h hm
    simp only [scanEntries] at h
    cases h1 : stepEntry fs cwd dp tS nm with
    | error e => rw [h1] at h; simp at h
    | ok b =>
      rw [h1] at h
      rcases List.mem_cons.mp hm with rfl | hm2
      · exact ⟨b, h1⟩
      · cases b with
        | true => exact ih cwd _ res name h hm2
        | false => exact ih cwd _ res name h hm2

/-- C2: when getLinksTo returns a result, that result is duplicate-free and
holds a path exactly when the path names a listed directory entry that lstat
classifies as a symbolic link and whose stored destination, read back and
resolved relative to the scanned directory, canonicalizes to text equal to
the canonical target text; a symbolic link resolving elsewhere never
appears. -/
theorem c2_result_characterization (fs : FS) (cwd : Loc) (t dp : List Char)
    (entries : List Name) (tp : Loc) (res : List (List Char))
    (hent : opendirPath fs cwd dp = Except.ok entries)
    (htp : realpathFrom fs cwd t = Except.ok tp)
    (hnd : entries.Nodup)
    (h : (getLinksTo fs cwd t dp).1 = Except.ok res) :
    res.Nodup ∧
    ∀ p, p ∈ res ↔ ∃ name dst lnkRel d q,
      name ∈ entries ∧ p = dp ++ '/' :: name ∧
      lstatPath fs cwd (dp ++ '/' :: name) = Except.ok (Node.symlink dst) ∧
      readlinkPath fs cwd (dp ++ '/' :: name) = Except.ok lnkRel ∧
      chdirPath fs cwd dp = Except.ok d ∧
      realpathFrom fs d lnkRel = Except.ok q ∧
      render tp = render q := by
  unfold getLinksTo at h
  rw [hent] at h; dsimp only at h
  rw [htp] at h; dsimp only at h
  have hres := scanEntries_ok_eq fs dp (render tp) entries cwd [] res h
  constructor
  · rw [hres]
    simp only [List.nil_append]
    refine List.Nodup.map ?_ (hnd.filter _)
    intro a b hab
    simpa using hab
  · intro p
    rw [hres]
    simp only [List.nil_append, List.mem_map, List.mem_filter, decide_eq_true_eq]
    constructor
    · rintro ⟨name, ⟨hm, hstep⟩, rfl⟩
      obtain ⟨dst, lnkRel, d, q, h1, h2, h3, h4, h5⟩ :=
        (stepEntry_true_iff fs cwd dp (render tp) name).mp hstep
      exact ⟨name, dst, lnkRel, d, q, hm, rfl, h1, h2, h3, h4, h5⟩
    · rintro ⟨name, dst, lnkRel, d, q, hm, rfl, h1, h2, h3, h4, h5⟩
      refine ⟨name, ⟨hm, ?_⟩, rfl⟩
      exact (stepEntry_true_iff fs cwd dp (render tp) name).mpr
        ⟨dst, lnkRel, d, q, h1, h2, h3, h4, h5⟩

/-- Witness for c2_result_characterization: in the clean snapshot the scan of
D for target A returns exactly the path of l1, and the l1 membership instance
of the characterization holds. -/
theorem c2_witness :
    opendirPath exFS2 [] dD = Except.ok [nA, nB, nL1, nL2] ∧
    realpathFrom exFS2 [] tA = Except.ok [nD, nA] ∧
    List.Nodup [nA, nB, nL1, nL2] ∧
    (getLinksTo exFS2 [] tA dD).1 = Except.ok [dD ++ '/' :: nL1] ∧
    List.Nodup [dD ++ '/' :: nL1] := by
  refine ⟨by decide, by decide, by decide, by decide, ?_⟩
  exact (c2_result_characterization exFS2 [] tA dD [nA, nB, nL1, nL2] [nD, nA]
    [dD ++ '/' :: nL1] (by decide) (by decide) (by decide) (by decide)).1

/-- C9: if lstat fails for any listed entry, getLinksTo throws; the call never
returns a result list, so matches collected for earlier entries are
discarded rather than returned. -/
theorem c9_lstat_failure_aborts (fs : FS) (cwd : Loc) (t dp : List Char)
    (entries : List Name) (tp : Loc) (name : Name) (e : RErr)
    (hent : opendirPath fs cwd dp = Except.ok entries)
    (htp : realpathFrom fs cwd t = Except.ok tp)
    (hm : name ∈ entries)
    (hfail : lstatPath fs cwd (dp ++ '/' :: name) = Except.error e) :
    ∃ e2, (getLinksTo fs cwd t dp).1 = Except.error e2 := by
  cases hout : (getLinksTo fs cwd t dp).1 with
  | error e2 => exact ⟨e2, rfl⟩
  | ok res =>
    exfalso
    unfold getLinksTo at hout
    rw [hent] at hout; dsimp only at hout
    rw [htp] at hout; dsimp only at hout
    obtain ⟨b, hb⟩ := scanEntries_ok_step fs dp (render tp) entries cwd [] res name hout hm
    obtain ⟨st, hst⟩ := stepEntry_ok_lstat fs cwd dp (render tp) name b hb
    rw [hfail] at hst
    simp at hst

/-- Witness for c9_lstat_failure_aborts: the listed entry g of D holds no
node, so lstat fails on it and the scan for target A throws. -/
theorem c9_witness :
    opendirPath exFS3 [] dD = Except.ok [nA, nG] ∧
    realpathFrom exFS3 [] tA = Except.ok [nD, nA] ∧
    nG ∈ [nA, nG] ∧
    lstatPath exFS3 [] (dD ++ '/' :: nG) = Except.error RErr.notFound ∧
    ∃ e2, (getLinksTo exFS3 [] tA dD).1 = Except.error e2 :=
  ⟨by decide, by decide, by decide, by decide,
    c9_lstat_failure_aborts exFS3 [] tA dD [nA, nG] [nD, nA] nG RErr.notFound
      (by decide) (by decide) (by decide) (by decide)⟩

/-- C1 as amended: a symbolic-link entry whose destination cannot be resolved
is not skipped; when the scan holds such an entry, getLinksTo throws, so a
directory with one dangling link yields an error and no match list at all. -/
theorem c1_dangling_aborts (fs : FS) (cwd : Loc) (t dp : List Char)
    (entries : List Name) (tp : Loc) (name : Name) (dst lnkRel : List Char)
    (d : Loc) (e : RErr)
    (hent : opendirPath fs cwd dp = Except.ok entries)
    (htp : realpathFrom fs cwd t = Except.ok tp)
    (hm : name ∈ entries)
    (hl : lstatPath fs cwd (dp ++ '/' :: name) = Except.ok (Node.symlink dst))
    (hr : readlinkPath fs cwd (dp ++ '/' :: name) = Except.ok lnkRel)
    (hd : chdirPath fs cwd dp = Except.ok d)
    (hfail : realpathFrom fs d lnkRel = Except.error e) :
    ∃ e2, (getLinksTo fs cwd t dp).1 = Except.error e2 := by
  cases hout : (getLinksTo fs cwd t dp).1 with
  | error e2 => exact ⟨e2, rfl⟩
  | ok res =>
    exfalso
    unfold getLinksTo at hout
    rw [hent] at hout; dsimp only at hout
    rw [htp] at hout; dsimp only at hout
    obtain ⟨b, hb⟩ := scanEntries_ok_step fs dp (render tp) entries cwd [] res name hout hm
    obtain ⟨lr2, d2, q, h2, h3, h4, _⟩ :=
      stepEntry_symlink_ok fs cwd dp (render tp) name dst b hb hl
    injection hr.symm.trans h2 with h5
    subst h5
    injection hd.symm.trans h3 with h6
    subst h6
    rw [hfail] at h4
    simp at h4

/-- Witness for c1_dangling_aborts: in the dangling-link snapshot the entry
l3 of D stores destination text naming nothing, and the scan for target A
throws. -/
theorem c1_witness :
    opendirPath exFS1 [] dD = Except.ok [nA, nL1, nL3] ∧
    realpathFrom exFS1 [] tA = Except.ok [nD, nA] ∧
    nL3 ∈ [nA, nL1, nL3] ∧
    lstatPath exFS1 [] (dD ++ '/' :: nL3) = Except.ok (Node.symlink sGone) ∧
    readlinkPath exFS1 [] (dD ++ '/' :: nL3) = Except.ok (sGone.take PATH_MAX) ∧
    chdirPath exFS1 [] dD = Except.ok [nD] ∧
    realpathFrom exFS1 [nD] (sGone.take PATH_MAX) = Except.error RErr.notFound ∧
    ∃ e2, (getLinksTo exFS1 [] tA dD).1 = Except.error e2 :=
  ⟨by decide, by decide, by decide, by decide, by decide, by decide, by decide,
    c1_dangling_aborts exFS1 [] tA dD [nA, nL1, nL3] [nD, nA] nL3 sGone
      (sGone.take PATH_MAX) [nD] RErr.notFound
      (by decide) (by decide) (by decide) (by decide) (by decide) (by decide)
      (by decide)⟩

/-- Splitting never returns an empty group list. -/
theorem splitSlash_ne_nil : ∀ cs : List Char, splitSlash cs ≠ [] := by
  intro cs
  induction cs with
  | nil => simp [splitSlash]
  | cons c rest ih =>
    simp only [splitSlash]
    by_cases h : c = '/'
    · simp [h]
    · simp only [h, if_false]
      cases hs : splitSlash rest with
      | nil => simp
      | cons g gs => simp

/-- Groups produced by splitting hold no slash. -/
theorem splitSlash_no_slash : ∀ (cs : List Char) (g : List Char),
    g ∈ splitSlash cs → ('/' : Char) ∉ g := by
  intro cs
  induction cs with
  | nil => intro g hg; simp [splitSlash] at hg; simp [hg]
  | cons c rest ih =>
    intro g hg
    simp only [splitSlash] at hg
    by_cases h : c = '/'
    · rw [if_pos h] at hg
      rcases List.mem_cons.mp hg with rfl | hg2
      · simp
      · exact ih g hg2
    · rw [if_neg h] at hg
      cases hs : splitSlash rest with
      | nil => exact absurd hs (splitSlash_ne_nil rest)
      | cons g0 gs =>
        rw [hs] at hg
        rcases List.mem_cons.mp hg with rfl | hg2
        · intro hmem
          rcases List.mem_cons.mp hmem with heq | hmem2
          · exact h heq.symm
          · exact ih g0 (hs ▸ List.mem_cons_self g0 gs) hmem2
        · exact ih g (hs ▸ List.mem_cons_of_mem g0 hg2)

/-- Splitting slash-free text yields that text as the single group. -/
theorem splitSlash_of_no_slash : ∀ n : List Char, ('/' : Char) ∉ n →
    splitSlash n = [n] := by
  intro n
  induction n with
  | nil => intro h; rfl
  | cons c rest ih =>
    intro h
    have hc : c ≠ '/' := fun hc => h (hc ▸ List.mem_cons_self c rest)
    have hrest : ('/' : Char) ∉ rest := fun hm => h (List.mem_cons_of_mem c hm)
    simp only [splitSlash, hc, if_false, ih hrest]

/-- Splitting distributes over a slash in the middle. -/
theorem splitSlash_append : ∀ a t : List Char,
    splitSlash (a ++ '/' :: t) = splitSlash a ++ splitSlash t := by
  intro a t
  induction a with
  | nil => simp [splitSlash]
  | cons c a2 ih =>
    have e1 : (c :: a2) ++ '/' :: t = c :: (a2 ++ '/' :: t) := rfl
    rw [e1]
    by_cases h : c = '/'
    · rw [show splitSlash (c :: (a2 ++ '/' :: t)) = [] :: splitSlash (a2 ++ '/' :: t) from by
        simp [splitSlash, h]]
      rw [show splitSlash (c :: a2) = [] :: splitSlash a2 from by simp [splitSlash, h]]
      rw [ih]
      rfl
    · obtain ⟨g, gs, hs⟩ : ∃ g gs, splitSlash a2 = g :: gs := by
        cases hs : splitSlash a2 with
        | nil => exact absurd hs (splitSlash_ne_nil a2)
        | cons g gs => exact ⟨g, gs, rfl⟩
      have h2 : splitSlash (a2 ++ '/' :: t) = g :: (gs ++ splitSlash t) := by
        rw [ih, hs]
        rfl
      rw [show splitSlash (c :: (a2 ++ '/' :: t)) = (c :: g) :: (gs ++ splitSlash t) from by
        rw [splitSlash, if_neg h, h2]]
      rw [show splitSlash (c :: a2) = (c :: g) :: gs from by rw [splitSlash, if_neg h, hs]]
      rfl

/-- Filtering the split of joined plain components gives them back. -/
theorem interSlash_filter : ∀ p : Loc, (∀ n ∈ p, plainName n) →
    (splitSlash (interSlash p)).filter (fun g => !(g == [] || g == ['.'])) = p := by
  intro p
  induction p with
  | nil => intro hp; rfl
  | cons n rest ih =>
    intro hp
    have hn : plainName n := hp n (List.mem_cons_self n rest)
    cases rest with
    | nil =>
      rw [show interSlash [n] = n from rfl]
      rw [splitSlash_of_no_slash n hn.1.2.2]
      simp [List.filter_cons, hn.1.1, hn.1.2.1]
    | cons m rest2 =>
      rw [show interSlash (n :: m :: rest2) = n ++ '/' :: interSlash (m :: rest2) from rfl]
      rw [splitSlash_append, splitSlash_of_no_slash n hn.1.2.2]
      rw [List.filter_append]
      have ih2 := ih (fun x hx => hp x (List.mem_cons_of_mem n hx))
      rw [ih2]
      simp [List.filter_cons, hn.1.1, hn.1.2.1]

/-- Parsing rendered plain components returns the absolute flag and exactly
those components. -/
theorem parse_render (p : Loc) (hp : ∀ n ∈ p, plainName n) :
    parsePath (render p) = (true, p) := by
  unfold parsePath render isAbsolute
  rw [show splitSlash ('/' :: interSlash p) = [] :: splitSlash (interSlash p) from by
    simp [splitSlash]]
  rw [List.filter_cons]
  rw [show (!(([] : List Char) == [] || ([] : List Char) == ['.'])) = false from rfl]
  rw [if_neg (by simp)]
  rw [interSlash_filter p hp]
  rfl

/-- Every component the parser emits is valid. -/
theorem parseComps_valid (s : List Char) : ∀ n ∈ (parsePath s).2, validComp n := by
  intro n hn
  unfold parsePath at hn
  simp only [List.mem_filter] at hn
  obtain ⟨h1, h2⟩ := hn
  refine ⟨?_, ?_, splitSlash_no_slash s n h1⟩
  · intro he; subst he; simp at h2
  · intro he; subst he; simp at h2

/-- Text appended behind a nonempty head keeps the head character. -/
theorem isAbsolute_append_cons (dp : List Char) (c : Char) (t : List Char)
    (h : dp ≠ []) : isAbsolute (dp ++ c :: t) = isAbsolute dp := by
  cases dp with
  | nil => exact absurd rfl h
  | cons x xs => rfl

/-- Parsing a directory text extended by slash and a valid component parses
the directory and appends the component. -/
theorem parse_append (dp : List Char) (name : Name) (hdp : dp ≠ [])
    (hv : validComp name) :
    parsePath (dp ++ '/' :: name) = (isAbsolute dp, (parsePath dp).2 ++ [name]) := by
  unfold parsePath
  rw [splitSlash_append, splitSlash_of_no_slash name hv.2.2, List.filter_append]
  rw [isAbsolute_append_cons dp '/' name hdp]
  simp [List.filter_cons, hv.1, hv.2.1]

/-- A scope change that lands in dirP resolved the directory text to dirP. -/
theorem chdirPath_ok_realpath (fs : FS) (cwd : Loc) (dp : List Char) (dirP : Loc)
    (hd : chdirPath fs cwd dp = Except.ok dirP) :
    realpathFrom fs cwd dp = Except.ok dirP := by
  unfold chdirPath at hd
  cases hr : realpathFrom fs cwd dp with
  | error e => rw [hr] at hd; simp at hd
  | ok pq =>
    rw [hr] at hd
    dsimp only at hd
    cases hn : fs.node pq with
    | none => rw [hn] at hd; simp at hd
    | some nd2 =>
      rw [hn] at hd
      cases nd2 with
      | file => simp at hd
      | symlink d2 => simp at hd
      | dir l =>
        dsimp only at hd
        injection hd with he
        rw [he]

/-- For a plain entry name of a scanned directory that resolves to dirP,
lstat on the concatenated entry path reports the node stored at the entry
location itself, without following it. -/
theorem lstatPath_entry (fs : FS) (cwd : Loc) (dp : List Char) (name : Name)
    (dirP : Loc) (nd : Node)
    (hdp : dp ≠ []) (hpl : plainName name)
    (hd : chdirPath fs cwd dp = Except.ok dirP)
    (hnode : fs.node (dirP ++ [name]) = some nd) :
    lstatPath fs cwd (dp ++ '/' :: name) = Except.ok nd := by
  have hrp := chdirPath_ok_realpath fs cwd dp dirP hd
  have hres : resolveB fs SYMLOOP_MAX (if isAbsolute dp then [] else cwd)
      (parsePath dp).2 = Except.ok dirP := hrp
  unfold lstatPath
  rw [parse_append dp name hdp hpl.1]
  dsimp only
  rw [List.getLast?_concat]
  dsimp only
  rw [if_neg hpl.2]
  rw [List.dropLast_concat]
  rw [hres]
  dsimp only
  rw [hnode]

/-- C8: entry classification uses the non-following metadata query: every
collected result path names a listed entry that lstat classifies as a
symbolic link, so a non-symlink entry never reaches the result; and any entry
of the scanned directory that stores a symlink node is reported by the query
as that symlink itself rather than resolved through to its destination. -/
theorem c8_lstat_classification (fs : FS) (cwd : Loc) (t dp : List Char)
    (entries : List Name) (tp dirP : Loc) (res : List (List Char))
    (hent : opendirPath fs cwd dp = Except.ok entries)
    (htp : realpathFrom fs cwd t = Except.ok tp)
    (h : (getLinksTo fs cwd t dp).1 = Except.ok res)
    (hdp : dp ≠ [])
    (hd : chdirPath fs cwd dp = Except.ok dirP) :
    (∀ p, p ∈ res → ∃ name dst, name ∈ entries ∧ p = dp ++ '/' :: name ∧
      lstatPath fs cwd (dp ++ '/' :: name) = Except.ok (Node.symlink dst)) ∧
    (∀ name dst, plainName name →
      fs.node (dirP ++ [name]) = some (Node.symlink dst) →
      lstatPath fs cwd (dp ++ '/' :: name) = Except.ok (Node.symlink dst)) := by
  constructor
  · intro p hp
    unfold getLinksTo at h
    rw [hent] at h; dsimp only at h
    rw [htp] at h; dsimp only at h
    have hres := scanEntries_ok_eq fs dp (render tp) entries cwd [] res h
    rw [hres] at hp
    simp only [List.nil_append, List.mem_map, List.mem_filter,
      decide_eq_true_eq] at hp
    obtain ⟨name, ⟨hm, hstep⟩, rfl⟩ := hp
    obtain ⟨dst, lnkRel, d, q, h1, _, _, _, _⟩ :=
      (stepEntry_true_iff fs cwd dp (render tp) name).mp hstep
    exact ⟨name, dst, hm, rfl, h1⟩
  · intro name dst hpl hnode
    exact lstatPath_entry fs cwd dp name dirP (Node.symlink dst) hdp hpl hd hnode

/-- Witness for c8_lstat_classification in the clean snapshot: the result
path of l1 comes from a symlink-classified entry, and the symlink node l1 of
D is classified as that symlink by lstat. -/
theorem c8_witness :
    opendirPath exFS2 [] dD = Except.ok [nA, nB, nL1, nL2] ∧
    (∃ name dst, name ∈ [nA, nB, nL1, nL2] ∧
      dD ++ '/' :: nL1 = dD ++ '/' :: name ∧
      lstatPath exFS2 [] (dD ++ '/' :: name) = Except.ok (Node.symlink dst)) ∧
    lstatPath exFS2 [] (dD ++ '/' :: nL1) = Except.ok (Node.symlink sDotA) := by
  refine ⟨by decide, ?_, ?_⟩
  · exact (c8_lstat_classification exFS2 [] tA dD [nA, nB, nL1, nL2] [nD, nA] [nD]
      [dD ++ '/' :: nL1] (by decide) (by decide) (by decide) (by decide)
      (by decide)).1 (dD ++ '/' :: nL1) (by decide)
  · exact (c8_lstat_classification exFS2 [] tA dD [nA, nB, nL1, nL2] [nD, nA] [nD]
      [dD ++ '/' :: nL1] (by decide) (by decide) (by decide) (by decide)
      (by decide)).2 nL1 sDotA ⟨⟨by decide, by decide, by decide⟩, by decide⟩ (by decide)

/-- C10: readlink reads the stored destination into a PATH_MAX buffer: it
succeeds with exactly the first PATH_MAX bytes of the stored text, the read
text never exceeds PATH_MAX bytes, and the loop body matches the entry
exactly when that truncated text resolves from the scanned directory to the
target, with no error or warning for the truncation. -/
theorem c10_truncated_read (fs : FS) (cwd : Loc) (dp tS : List Char)
    (name : Name) (dirP : Loc) (dst : List Char)
    (hdp : dp ≠ []) (hpl : plainName name)
    (hd : chdirPath fs cwd dp = Except.ok dirP)
    (hnode : fs.node (dirP ++ [name]) = some (Node.symlink dst)) :
    readlinkPath fs cwd (dp ++ '/' :: name) = Except.ok (dst.take PATH_MAX) ∧
    (dst.take PATH_MAX).length ≤ PATH_MAX ∧
    (stepEntry fs cwd dp tS name = Except.ok true ↔
      ∃ q, realpathFrom fs dirP (dst.take PATH_MAX) = Except.ok q ∧
        tS = render q) := by
  have hl := lstatPath_entry fs cwd dp name dirP (Node.symlink dst) hdp hpl hd hnode
  have hr : readlinkPath fs cwd (dp ++ '/' :: name) = Except.ok (dst.take PATH_MAX) := by
    unfold readlinkPath
    rw [hl]
  refine ⟨hr, ?_, ?_, ?_⟩
  · rw [List.length_take]
    exact min_le_left _ _
  · intro h
    obtain ⟨dst2, lnkRel, d, q, h1, h2, h3, h4, h5⟩ :=
      (stepEntry_true_iff fs cwd dp tS name).mp h
    injection hl.symm.trans h1 with h1e
    injection h1e with h1f
    subst h1f
    injection hr.symm.trans h2 with h2e
    subst h2e
    injection hd.symm.trans h3 with h3e
    subst h3e
    exact ⟨q, h4, h5⟩
  · rintro ⟨q, h4, h5⟩
    exact (stepEntry_true_iff fs cwd dp tS name).mpr
      ⟨dst, dst.take PATH_MAX, dirP, q, hl, hr, hd, h4, h5⟩

/-- Witness for c10_truncated_read: the stored destination of entry L in D is
5000 bytes, longer than PATH_MAX. -/
theorem c10_witness :
    dD ≠ [] ∧ validComp nLL ∧ nLL ≠ ['.', '.'] ∧
    chdirPath exFS4 [] dD = Except.ok [nD] ∧
    exFS4.node ([nD] ++ [nLL]) = some (Node.symlink longDest) ∧
    PATH_MAX < longDest.length ∧
    (readlinkPath exFS4 [] (dD ++ '/' :: nLL) = Except.ok (longDest.take PATH_MAX) ∧
     (longDest.take PATH_MAX).length ≤ PATH_MAX ∧
     (stepEntry exFS4 [] dD tA nLL = Except.ok true ↔
       ∃ q, realpathFrom exFS4 [nD] (longDest.take PATH_MAX) = Except.ok q ∧
         tA = render q)) := by
  refine ⟨by decide, ⟨by decide, by decide, by decide⟩, by decide, by decide, rfl,
    ?_, ?_⟩
  · have h1 : longDest.length = 5000 := List.length_replicate 5000 'a'
    rw [h1]
    decide
  exact c10_truncated_read exFS4 [] dD tA nLL [nD] longDest
    (by decide) ⟨⟨by decide, by decide, by decide⟩, by decide⟩ (by decide) rfl

/-- Resolution of absolute text ignores the process working directory. -/
theorem realpathFrom_abs (fs : FS) (s : List Char) (h : isAbsolute s = true)
    (cwd cwd2 : Loc) : realpathFrom fs cwd s = realpathFrom fs cwd2 s := by
  unfold realpathFrom
  dsimp only
  rw [show (parsePath s).1 = isAbsolute s from rfl, h]
  simp

/-- Opening an absolute directory text ignores the working directory. -/
theorem opendirPath_abs (fs : FS) (s : List Char) (h : isAbsolute s = true)
    (cwd cwd2 : Loc) : opendirPath fs cwd s = opendirPath fs cwd2 s := by
  unfold opendirPath
  rw [realpathFrom_abs fs s h cwd cwd2]

/-- Changing to an absolute directory text ignores the working directory. -/
theorem chdirPath_abs (fs : FS) (s : List Char) (h : isAbsolute s = true)
    (cwd cwd2 : Loc) : chdirPath fs cwd s = chdirPath fs cwd2 s := by
  unfold chdirPath
  rw [realpathFrom_abs fs s h cwd cwd2]

/-- lstat of absolute text ignores the working directory. -/
theorem lstatPath_abs (fs : FS) (s : List Char) (h : isAbsolute s = true)
    (cwd cwd2 : Loc) : lstatPath fs cwd s = lstatPath fs cwd2 s := by
  unfold lstatPath
  dsimp only
  rw [show (parsePath s).1 = isAbsolute s from rfl, h]
  simp

/-- readlink of absolute text ignores the working directory. -/
theorem readlinkPath_abs (fs : FS) (s : List Char) (h : isAbsolute s = true)
    (cwd cwd2 : Loc) : readlinkPath fs cwd s = readlinkPath fs cwd2 s := by
  unfold readlinkPath
  rw [lstatPath_abs fs s h cwd cwd2]

/-- Absolute text is nonempty. -/
theorem isAbsolute_ne_nil (s : List Char) (h : isAbsolute s = true) : s ≠ [] := by
  intro he
  subst he
  simp [isAbsolute] at h

/-- The loop body under an absolute scanned-directory text behaves the same
from any working directory. -/
theorem stepEntry_abs (fs : FS) (dp tS : List Char) (name : Name)
    (h : isAbsolute dp = true) (cwd cwd2 : Loc) :
    stepEntry fs cwd dp tS name = stepEntry fs cwd2 dp tS name := by
  have hp : isAbsolute (dp ++ '/' :: name) = true := by
    rw [isAbsolute_append_cons dp '/' name (isAbsolute_ne_nil dp h)]
    exact h
  unfold stepEntry
  rw [lstatPath_abs fs (dp ++ '/' :: name) hp cwd cwd2]
  rw [readlinkPath_abs fs (dp ++ '/' :: name) hp cwd cwd2]
  rw [chdirPath_abs fs dp h cwd cwd2]

/-- The scan under an absolute scanned-directory text computes the same
outcome from any working directory. -/
theorem scanEntries_abs (fs : FS) (dp tS : List Char) (h : isAbsolute dp = true) :
    ∀ entries cwd cwd2 vec,
      (scanEntries fs dp tS entries cwd vec).1 =
      (scanEntries fs dp tS entries cwd2 vec).1 := by
  intro entries
  induction entries with
  | nil => intro cwd cwd2 vec; rfl
  | cons name rest ih =>
    intro cwd cwd2 vec
    simp only [scanEntries]
    rw [stepEntry_abs fs dp tS name h cwd cwd2]
    cases stepEntry fs cwd2 dp tS name with
    | error e => rfl
    | ok b =>
      cases b with
      | true => exact ih cwd cwd2 (vec ++ [dp ++ '/' :: name])
      | false => exact ih cwd cwd2 vec

/-- C3: with the directory and target given as absolute text, as the program
does, the outcome of getLinksTo is the same whatever the process working
directory is: every stored link destination is canonicalized against the
scanned directory (the scope change passes dirpath to the resolution), never
against the scanning process working directory. -/
theorem c3_cwd_invariance (fs : FS) (t dp : List Char) (cwd cwd2 : Loc)
    (habs1 : isAbsolute dp = true) (habs2 : isAbsolute t = true) :
    (getLinksTo fs cwd t dp).1 = (getLinksTo fs cwd2 t dp).1 := by
  unfold getLinksTo
  rw [opendirPath_abs fs dp habs1 cwd cwd2]
  rw [realpathFrom_abs fs t habs2 cwd cwd2]
  cases opendirPath fs cwd2 dp with
  | error e => rfl
  | ok entries =>
    cases realpathFrom fs cwd2 t with
    | error e => rfl
    | ok target =>
      exact scanEntries_abs fs dp (render target) habs1 entries cwd cwd2 []

/-- Witness for c3_cwd_invariance: scanning D for A from the root working
directory and from inside D gives the same outcome. -/
theorem c3_witness :
    isAbsolute dD = true ∧ isAbsolute tA = true ∧
    (getLinksTo exFS1 [] tA dD).1 = (getLinksTo exFS1 [nD] tA dD).1 :=
  ⟨by decide, by decide, c3_cwd_invariance exFS1 tA dD [] [nD] (by decide) (by decide)⟩

/-- In a sane snapshot the empty location (the root) is good. -/
theorem goodPath_nil (fs : FS) (hwf : fs.wf) : goodPath fs [] := by
  refine ⟨?_, ?_, Or.inl hwf.1⟩
  · intro n hn; cases hn
  · intro k hk; simp at hk

/-- Dropping the last component preserves goodness. -/
theorem goodPath_dropLast (fs : FS) (cur : Loc) (hg : goodPath fs cur) :
    goodPath fs cur.dropLast := by
  obtain ⟨h1, h2, h3⟩ := hg
  refine ⟨?_, ?_, ?_⟩
  · intro n hn
    exact h1 n ((List.dropLast_sublist cur).subset hn)
  · intro k hk
    rw [List.length_dropLast] at hk
    rw [List.dropLast_eq_take, List.take_take]
    rw [min_eq_left (Nat.le_of_lt hk)]
    exact h2 k (lt_of_lt_of_le hk (Nat.sub_le _ _))
  · cases hc : cur with
    | nil => rw [hc] at h3; exact h3
    | cons x xs =>
      rw [← hc, List.dropLast_eq_take]
      left
      apply h2
      have hne : cur.length ≠ 0 := by rw [hc]; simp
      omega

/-- Extending a good directory location by a plain existing component keeps
the two shared goodness obligations. -/
theorem goodPath_snoc (fs : FS) (cur : Loc) (c : Name)
    (hg : goodPath fs cur) (hdir : isDir fs cur) (hc : plainName c) :
    (∀ n ∈ cur ++ [c], plainName n) ∧
    (∀ k, k < (cur ++ [c]).length → isDir fs ((cur ++ [c]).take k)) := by
  obtain ⟨h1, h2, _⟩ := hg
  constructor
  · intro n hn
    rcases List.mem_append.mp hn with hn2 | hn2
    · exact h1 n hn2
    · rw [List.mem_singleton.mp hn2]; exact hc
  · intro k hk
    rw [List.length_append, List.length_singleton] at hk
    have hk2 : k ≤ cur.length := by omega
    rw [List.take_append_of_le_length hk2]
    rcases Nat.lt_or_ge k cur.length with hlt | hge
    · exact h2 k hlt
    · rw [le_antisymm hk2 hge, List.take_length]
      exact hdir

/-- A successful walk from a good location through valid components, with a
symlink resolver that returns only good locations, lands on a good
location. -/
theorem walk_good (fs : FS) (hwf : fs.wf)
    (rl : Loc → List Char → Except RErr Loc)
    (hrl : ∀ cur d q, goodPath fs cur → rl cur d = Except.ok q → goodPath fs q) :
    ∀ comps cur p, (∀ n ∈ comps, validComp n) → goodPath fs cur →
      walk fs rl cur comps = Except.ok p → goodPath fs p := by
  intro comps
  induction comps with
  | nil =>
    intro cur p hv hg h
    simp only [walk] at h
    injection h with he
    rw [← he]
    exact hg
  | cons c rest ih =>
    intro cur p hv hg h
    simp only [walk] at h
    by_cases hdd : c = ['.', '.']
    · rw [if_pos hdd] at h
      exact ih cur.dropLast p (fun n hn => hv n (List.mem_cons_of_mem c hn))
        (goodPath_dropLast fs cur hg) h
    · rw [if_neg hdd] at h
      cases hn : fs.node (cur ++ [c]) with
      | none => rw [hn] at h; simp at h
      | some nd =>
        rw [hn] at h
        have hcdir : isDir fs cur := hwf.2 cur c (by rw [hn]; simp)
        have hplain : plainName c := ⟨hv c (List.mem_cons_self c rest), hdd⟩
        cases nd with
        | file =>
          dsimp only at h
          by_cases hr : rest = []
          · rw [if_pos hr] at h
            injection h with he
            rw [← he]
            obtain ⟨g1, g2⟩ := goodPath_snoc fs cur c hg hcdir hplain
            exact ⟨g1, g2, Or.inr hn⟩
          · rw [if_neg hr] at h
            simp at h
        | dir l =>
          dsimp only at h
          obtain ⟨g1, g2⟩ := goodPath_snoc fs cur c hg hcdir hplain
          exact ih (cur ++ [c]) p (fun n hn2 => hv n (List.mem_cons_of_mem c hn2))
            ⟨g1, g2, Or.inl ⟨l, hn⟩⟩ h
        | symlink d =>
          dsimp only at h
          cases hb : rl cur d with
          | error e => rw [hb] at h; simp at h
          | ok base =>
            rw [hb] at h
            exact ih base p (fun n hn2 => hv n (List.mem_cons_of_mem c hn2))
              (hrl cur d base hg hb) h

/-- A successful bounded resolution from a good location lands on a good
location. -/
theorem resolveB_good (fs : FS) (hwf : fs.wf) :
    ∀ b cur comps p, (∀ n ∈ comps, validComp n) → goodPath fs cur →
      resolveB fs b cur comps = Except.ok p → goodPath fs p := by
  intro b
  induction b with
  | zero =>
    intro cur comps p hv hg h
    simp only [resolveB] at h
    exact walk_good fs hwf _ (fun cur2 d q hg2 hq => by simp at hq) comps cur p hv hg h
  | succ b2 ih =>
    intro cur comps p hv hg h
    simp only [resolveB] at h
    refine walk_good fs hwf _ ?_ comps cur p hv hg h
    intro cur2 d q hg2 hq
    refine ih (if (parsePath d).1 = true then [] else cur2) (parsePath d).2 q
      (parseComps_valid d) ?_ hq
    by_cases ha : (parsePath d).1 = true
    · rw [if_pos ha]; exact goodPath_nil fs hwf
    · rw [if_neg ha]; exact hg2

/-- A successful realpath run from a good working directory lands on a good
location. -/
theorem realpathFrom_good (fs : FS) (hwf : fs.wf) (cwd : Loc) (s : List Char)
    (p : Loc) (hcwd : goodPath fs cwd)
    (h : realpathFrom fs cwd s = Except.ok p) : goodPath fs p := by
  unfold realpathFrom at h
  dsimp only at h
  refine resolveB_good fs hwf SYMLOOP_MAX
    (if (parsePath s).1 = true then [] else cwd) (parsePath s).2 p
    (parseComps_valid s) ?_ h
  by_cases ha : (parsePath s).1 = true
  · rw [if_pos ha]; exact goodPath_nil fs hwf
  · rw [if_neg ha]; exact hcwd

/-- Walking the components of a good location from its own front piece never
meets a symlink or a failure: every resolver is unused and the walk returns
the location unchanged. -/
theorem walk_self (fs : FS) (rl : Loc → List Char → Except RErr Loc) :
    ∀ rest cur, goodPath fs (cur ++ rest) →
      walk fs rl cur rest = Except.ok (cur ++ rest) := by
  intro rest
  induction rest with
  | nil => intro cur hg; simp [walk]
  | cons c rest2 ih =>
    intro cur hg
    have hassoc : cur ++ c :: rest2 = (cur ++ [c]) ++ rest2 := by simp
    have hc : plainName c := hg.1 c (by simp)
    simp only [walk]
    rw [if_neg hc.2]
    cases rest2 with
    | nil =>
      have h3 := hg.2.2
      rw [show cur ++ [c] = cur ++ c :: ([] : List Name) from by simp]
      rcases (by simpa using h3 :
          isDir fs (cur ++ [c]) ∨ fs.node (cur ++ [c]) = some Node.file) with ⟨l, hl⟩ | hf
      · rw [hl]
        dsimp only
        simp [walk]
      · rw [hf]
        dsimp only
        rw [if_pos rfl]
    | cons m rest3 =>
      have hdir : isDir fs (cur ++ [c]) := by
        have h4 := hg.2.1 (cur ++ [c]).length (by rw [hassoc]; simp)
        rw [hassoc] at h4
        rwa [List.take_left] at h4
      rcases hdir with ⟨l, hl⟩
      rw [hl]
      dsimp only
      have hg2 : goodPath fs ((cur ++ [c]) ++ m :: rest3) := by rwa [hassoc] at hg
      have := ih (cur ++ [c]) hg2
      rw [this, hassoc]

/-- Bounded resolution of the components of a good location from the root
returns it unchanged, for any nesting budget. -/
theorem resolveB_self (fs : FS) (b : Nat) (p : Loc) (hg : goodPath fs p) :
    resolveB fs b [] p = Except.ok p := by
  have hg2 : goodPath fs (([] : Loc) ++ p) := by simpa using hg
  cases b with
  | zero =>
    simp only [resolveB]
    have := walk_self fs (fun _ _ => Except.error RErr.loopLimit) p [] hg2
    simpa using this
  | succ b2 =>
    simp only [resolveB]
    have := walk_self fs
      (fun cur2 d =>
        let pd := parsePath d
        resolveB fs b2 (if pd.1 then [] else cur2) pd.2) p [] hg2
    simpa using this

/-- C7: canonicalization is idempotent: when realpath succeeds on some text
from a sane snapshot and a good working directory, running it again on the
returned canonical text succeeds from any working directory and returns that
text unchanged. -/
theorem c7_canonicalize_idem (fs : FS) (cwd cwd2 : Loc) (s c : List Char)
    (hwf : fs.wf) (hcwd : goodPath fs cwd)
    (h : canonicalize fs cwd s = Except.ok c) :
    canonicalize fs cwd2 c = Except.ok c := by
  unfold canonicalize at h ⊢
  cases hr : realpathFrom fs cwd s with
  | error e => rw [hr] at h; simp [Except.map] at h
  | ok p =>
    rw [hr] at h
    have hc : c = render p := by
      have h2 : Except.ok (render p) = Except.ok c := h
      injection h2 with h3
      exact h3.symm
    subst hc
    have hgp := realpathFrom_good fs hwf cwd s p hcwd hr
    have hpr : parsePath (render p) = (true, p) := parse_render p hgp.1
    have h4 : realpathFrom fs cwd2 (render p) = Except.ok p := by
      unfold realpathFrom
      rw [hpr]
      exact resolveB_self fs SYMLOOP_MAX p hgp
    rw [h4]
    rfl

/-- A snoc equal to a one-element list pins both pieces. -/
theorem concat_eq_one {α : Type} (p : List α) (c x : α) (h : p ++ [c] = [x]) :
    p = [] ∧ c = x := by
  cases p with
  | nil => simpa using h
  | cons a p2 =>
    simp only [List.cons_append, List.cons.injEq] at h
    exact absurd h.2 (by simp)

/-- A snoc equal to a two-element list pins both pieces. -/
theorem concat_eq_two {α : Type} (p : List α) (c x y : α) (h : p ++ [c] = [x, y]) :
    p = [x] ∧ c = y := by
  cases p with
  | nil => simp at h
  | cons a p2 =>
    simp only [List.cons_append, List.cons.injEq] at h
    obtain ⟨rfl, h2⟩ := h
    obtain ⟨rfl, rfl⟩ := concat_eq_one p2 c y h2
    exact ⟨rfl, rfl⟩

/-- The clean snapshot is sane: its root is a directory and each of its six
occupied locations hangs under a directory. -/
theorem exFS2_wf : FS.wf exFS2 := by
  constructor
  · exact ⟨[nD], rfl⟩
  · intro p c h
    have hsup : p ++ [c] = [] ∨ p ++ [c] = [nD] ∨ p ++ [c] = [nD, nA] ∨
        p ++ [c] = [nD, nB] ∨ p ++ [c] = [nD, nL1] ∨ p ++ [c] = [nD, nL2] := by
      by_contra hq
      push_neg at hq
      obtain ⟨q1, q2, q3, q4, q5, q6⟩ := hq
      apply h
      show exNode2 (p ++ [c]) = none
      unfold exNode2
      rw [if_neg q1, if_neg q2, if_neg q3, if_neg q4, if_neg q5, if_neg q6]
    rcases hsup with h0 | h0 | h0 | h0 | h0 | h0
    · exact absurd h0 (by simp)
    · obtain ⟨rfl, rfl⟩ := concat_eq_one p c nD h0
      exact ⟨[nD], rfl⟩
    · obtain ⟨rfl, rfl⟩ := concat_eq_two p c nD nA h0
      exact ⟨[nA, nB, nL1, nL2], rfl⟩
    · obtain ⟨rfl, rfl⟩ := concat_eq_two p c nD nB h0
      exact ⟨[nA, nB, nL1, nL2], rfl⟩
    · obtain ⟨rfl, rfl⟩ := concat_eq_two p c nD nL1 h0
      exact ⟨[nA, nB, nL1, nL2], rfl⟩
    · obtain ⟨rfl, rfl⟩ := concat_eq_two p c nD nL2 h0
      exact ⟨[nA, nB, nL1, nL2], rfl⟩

/-- Witness for c7_canonicalize_idem: canonicalizing the link path D/l1 in
the clean snapshot yields the canonical text of A, and canonicalizing that
text again, even from a different working directory, returns it unchanged. -/
theorem c7_witness :
    FS.wf exFS2 ∧ goodPath exFS2 [] ∧
    canonicalize exFS2 [] (dD ++ '/' :: nL1) = Except.ok tA ∧
    canonicalize exFS2 [nD] tA = Except.ok tA :=
  ⟨exFS2_wf, goodPath_nil exFS2 exFS2_wf, by decide,
    c7_canonicalize_idem exFS2 [] [nD] (dD ++ '/' :: nL1) tA exFS2_wf
      (goodPath_nil exFS2 exFS2_wf) (by decide)⟩
